import Mathlib

/-!
Verification of the SLEEK semantic-search pipeline
(`src/Sleek/semantic_search.py`) against its specification.

The Python source is shallowly embedded: pure functions become Lean
functions over `List`/`ℚ`; Python runtime errors (ZeroDivisionError,
IndexError) become `Except` values; the external collaborators
(sentence-transformer model, faiss index, langchain text splitter,
pickle, the filesystem) are modelled as explicit parameters or small
state structures carrying the contracts the spec assigns to them.
-/

deriving instance DecidableEq for Except

namespace Sleek

/-- Python runtime errors that the embedded functions can raise. -/
inductive PyError where
  | zeroDivisionError
  | indexError
  deriving DecidableEq, Repr

/-- Python division `a / b` on numbers: raises `ZeroDivisionError` when the
denominator is zero, otherwise returns the exact quotient (floats are
idealized as rationals). -/
def pyDiv (a b : ℚ) : Except PyError ℚ :=
  if b = 0 then .error .zeroDivisionError else .ok (a / b)

/-- Python sequence indexing `l[i]` for a non-negative index: raises
`IndexError` when `i` is out of range. -/
def pyIndex (l : List α) (i : ℕ) : Except PyError α :=
  match l.get? i with
  | some a => .ok a
  | none => .error .indexError

/-- Python `round(x, 3)`: round to three decimal places with ties going to
the even multiple of 1/1000 (banker's rounding, as CPython's `round`). -/
def pyRound3 (x : ℚ) : ℚ :=
  let y : ℚ := x * 1000
  let f : ℤ := ⌊y⌋
  let r : ℚ := y - f
  let n : ℤ :=
    if r < 1/2 then f
    else if 1/2 < r then f + 1
    else if f % 2 = 0 then f else f + 1
  (n : ℚ) / 1000

/-- Left-to-right effectful map over a list (a Python list comprehension:
the first raised error aborts the whole comprehension). -/
def exceptMapList (f : α → Except ε β) : List α → Except ε (List β)
  | [] => .ok []
  | a :: as => do
    let b ← f a
    let bs ← exceptMapList f as
    pure (b :: bs)

/-- Embedding of `compute_recall_at_k` (semantic_search.py lines 78-92):
`round(sum([len(set(ann[i]) & set(nn_gt[i])) / k for i in range(len(ann))]) / len(ann), 3)`.
The list comprehension is evaluated first (each element indexes `ann`, then
`nn_gt`, then divides by `k`), then the sum is divided by `len(ann)`, then
rounded. -/
def compute_recall_at_k (nn_gt ann : List (List ℤ)) (k : ℕ) : Except PyError ℚ := do
  let terms ← exceptMapList (fun i => do
    let a ← pyIndex ann i
    let g ← pyIndex nn_gt i
    pyDiv ((a.toFinset ∩ g.toFinset).card : ℚ) (k : ℚ)) (List.range ann.length)
  let m ← pyDiv terms.sum (ann.length : ℚ)
  pure (pyRound3 m)

/-- The recall@k formula as the spec words it: the mean over queries of
(|approximate ∩ ground-truth| / k), rounded to three decimal places. -/
def recall_at_k_spec (nn_gt ann : List (List ℤ)) (k : ℕ) : ℚ :=
  pyRound3 ((((List.range ann.length).map (fun i =>
    (((ann.getD i []).toFinset ∩ (nn_gt.getD i []).toFinset).card : ℚ) / (k : ℚ))).sum)
      / (ann.length : ℚ))

lemma exceptMapList_ok {f : α → Except ε β} {v : α → β} :
    ∀ l : List α, (∀ x ∈ l, f x = .ok (v x)) → exceptMapList f l = .ok (l.map v)
  | [], _ => rfl
  | a :: as, h => by
    have ha := h a (by simp)
    have hrest := exceptMapList_ok as (fun x hx => h x (by simp [hx]))
    simp [exceptMapList, ha, hrest, Bind.bind, Except.bind, Pure.pure, Except.pure]

lemma exceptMapList_error {f : α → Except ε β} {a : α} {e : ε} (as : List α)
    (ha : f a = .error e) : exceptMapList f (a :: as) = .error e := by
  simp [exceptMapList, ha, Bind.bind, Except.bind]

lemma pyIndex_ok {l : List α} {i : ℕ} (h : i < l.length) (d : α) :
    pyIndex l i = .ok (l.getD i d) := by
  simp [pyIndex, List.getD, List.getElem?_eq_getElem h]

lemma pyDiv_ok {a b : ℚ} (h : b ≠ 0) : pyDiv a b = .ok (a / b) := by
  simp [pyDiv, h]

lemma pyRound3_zero : pyRound3 0 = 0 := by norm_num [pyRound3]

lemma pyRound3_one : pyRound3 1 = 1 := by norm_num [pyRound3]

lemma compute_recall_eq_spec (nn_gt ann : List (List ℤ)) (k : ℕ)
    (hlen : nn_gt.length = ann.length) (hne : ann ≠ []) (hk : 0 < k) :
    compute_recall_at_k nn_gt ann k = .ok (recall_at_k_spec nn_gt ann k) := by
  have hkQ : (k : ℚ) ≠ 0 := Nat.cast_ne_zero.mpr hk.ne'
  have hlenQ : ((ann.length : ℕ) : ℚ) ≠ 0 :=
    Nat.cast_ne_zero.mpr (List.length_pos.mpr hne).ne'
  have hmap := exceptMapList_ok (f := fun i => do
      let a ← pyIndex ann i
      let g ← pyIndex nn_gt i
      pyDiv ((a.toFinset ∩ g.toFinset).card : ℚ) (k : ℚ))
    (v := fun i => (((ann.getD i []).toFinset ∩ (nn_gt.getD i []).toFinset).card : ℚ) / (k : ℚ))
    (List.range ann.length) ?_
  · rw [compute_recall_at_k, hmap]
    show Except.bind _ _ = _
    rw [Except.bind]
    rw [pyDiv_ok hlenQ]
    rfl
  · intro i hi
    rw [List.mem_range] at hi
    have hig : i < nn_gt.length := hlen ▸ hi
    simp [pyIndex_ok hi ([] : List ℤ), pyIndex_ok hig ([] : List ℤ), pyDiv_ok hkQ,
      Bind.bind, Except.bind]

lemma recall_spec_all_equal (nn_gt ann : List (List ℤ)) (k : ℕ)
    (hne : ann ≠ []) (hk : 0 < k)
    (hall : ∀ i, i < ann.length → ann.getD i [] = nn_gt.getD i [] ∧
      (ann.getD i []).length = k ∧ (ann.getD i []).Nodup) :
    recall_at_k_spec nn_gt ann k = 1 := by
  have hkQ : (k : ℚ) ≠ 0 := Nat.cast_ne_zero.mpr hk.ne'
  have hlenQ : ((ann.length : ℕ) : ℚ) ≠ 0 :=
    Nat.cast_ne_zero.mpr (List.length_pos.mpr hne).ne'
  unfold recall_at_k_spec
  rw [List.map_congr_left (g := fun _ => (1 : ℚ)) ?_]
  · rw [List.map_const', List.sum_replicate, List.length_range, nsmul_eq_mul, mul_one,
      div_self hlenQ, pyRound3_one]
  · intro i hi
    rw [List.mem_range] at hi
    obtain ⟨heq, hlen, hnodup⟩ := hall i hi
    rw [← heq, Finset.inter_self, List.toFinset_card_of_nodup hnodup, hlen, div_self hkQ]

lemma recall_spec_disjoint (nn_gt ann : List (List ℤ)) (k : ℕ)
    (hdisj : ∀ i, i < ann.length →
      (ann.getD i []).toFinset ∩ (nn_gt.getD i []).toFinset = ∅) :
    recall_at_k_spec nn_gt ann k = 0 := by
  unfold recall_at_k_spec
  rw [List.map_congr_left (g := fun _ => (0 : ℚ)) ?_]
  · rw [List.map_const', List.sum_replicate, smul_zero, zero_div, pyRound3_zero]
  · intro i hi
    rw [List.mem_range] at hi
    rw [hdisj i hi]
    simp

/-- C3: for equal-length batches `nn_gt`, `ann` and `k > 0`,
`compute_recall_at_k` returns the mean over queries of
`|set(ann[i]) ∩ set(nn_gt[i])| / k`, rounded to three decimal places; it
returns 1.0 when every approximate list equals its ground-truth list of `k`
distinct indices, 0.0 when every pair is disjoint, and in particular
`compute_recall_at_k [[0,1,2]] [[3,4,5]] 3 = 0.0` and
`compute_recall_at_k [[0,1,2]] [[0,1,2]] 3 = 1.0`. -/
theorem recall_at_k_meets_spec :
    (∀ (nn_gt ann : List (List ℤ)) (k : ℕ),
      nn_gt.length = ann.length → ann ≠ [] → 0 < k →
      compute_recall_at_k nn_gt ann k = .ok (recall_at_k_spec nn_gt ann k)) ∧
    (∀ (nn_gt ann : List (List ℤ)) (k : ℕ),
      nn_gt.length = ann.length → ann ≠ [] → 0 < k →
      (∀ i, i < ann.length → ann.getD i [] = nn_gt.getD i [] ∧
        (ann.getD i []).length = k ∧ (ann.getD i []).Nodup) →
      compute_recall_at_k nn_gt ann k = .ok 1) ∧
    (∀ (nn_gt ann : List (List ℤ)) (k : ℕ),
      nn_gt.length = ann.length → ann ≠ [] → 0 < k →
      (∀ i, i < ann.length →
        (ann.getD i []).toFinset ∩ (nn_gt.getD i []).toFinset = ∅) →
      compute_recall_at_k nn_gt ann k = .ok 0) ∧
    compute_recall_at_k [[0,1,2]] [[3,4,5]] 3 = .ok 0 ∧
    compute_recall_at_k [[0,1,2]] [[0,1,2]] 3 = .ok 1 := by
  refine ⟨fun nn_gt ann k h1 h2 h3 => compute_recall_eq_spec nn_gt ann k h1 h2 h3,
    fun nn_gt ann k h1 h2 h3 h4 => ?_, fun nn_gt ann k h1 h2 h3 h4 => ?_, ?_, ?_⟩
  · rw [compute_recall_eq_spec nn_gt ann k h1 h2 h3,
      recall_spec_all_equal nn_gt ann k h2 h3 h4]
  · rw [compute_recall_eq_spec nn_gt ann k h1 h2 h3,
      recall_spec_disjoint nn_gt ann k h4]
  · simp [compute_recall_at_k, exceptMapList, pyIndex, pyDiv, pyRound3, List.range_succ,
      Bind.bind, Except.bind, Pure.pure, Except.pure]
  · simp [compute_recall_at_k, exceptMapList, pyIndex, pyDiv, pyRound3, List.range_succ,
      Bind.bind, Except.bind, Pure.pure, Except.pure]

/-- Witness for C3: the theorem instantiated at the spec's concrete example
`nn_gt = [[0,1,2]]`, `ann = [[0,1,2]]`, `k = 3`, all hypotheses discharged. -/
theorem recall_at_k_meets_spec_witness :
    compute_recall_at_k [[0,1,2]] [[0,1,2]] 3 =
      .ok (recall_at_k_spec [[0,1,2]] [[0,1,2]] 3) :=
  recall_at_k_meets_spec.1 [[0,1,2]] [[0,1,2]] 3 (by decide)
    (by decide) (by decide)

/-- C10 (counterexample): with ground truth `[]`, batch `[[0]]` and `k = 0`
(a non-empty batch), the code raises `IndexError` — evaluating
`set(nn_gt[0])` fails before the division by `k` is reached — not
`ZeroDivisionError` as the claim states for every ground-truth argument. -/
theorem recall_at_k_short_gt_index_error :
    compute_recall_at_k [] [[0]] 0 = .error .indexError ∧
    PyError.indexError ≠ PyError.zeroDivisionError := by
  constructor
  · simp [compute_recall_at_k, exceptMapList, pyIndex, pyDiv, List.range_succ,
      Bind.bind, Except.bind, Pure.pure, Except.pure]
  · decide

/-- C10 (amended): `compute_recall_at_k` applied to an empty
approximate-results batch raises `ZeroDivisionError` for every ground truth
and every `k`; and `k = 0` with a non-empty batch raises `ZeroDivisionError`
provided the ground-truth batch is non-empty (the very first term
`len(set(ann[0]) & set(nn_gt[0])) / 0` then divides by zero; only an empty
`nn_gt` makes the `nn_gt[0]` lookup raise `IndexError` first). -/
theorem recall_at_k_div_by_zero :
    (∀ (nn_gt : List (List ℤ)) (k : ℕ),
      compute_recall_at_k nn_gt [] k = .error .zeroDivisionError) ∧
    (∀ (nn_gt ann : List (List ℤ)), ann ≠ [] → nn_gt ≠ [] →
      compute_recall_at_k nn_gt ann 0 = .error .zeroDivisionError) := by
  constructor
  · intro nn_gt k
    simp [compute_recall_at_k, exceptMapList, pyDiv,
      Bind.bind, Except.bind, Pure.pure, Except.pure]
  · intro nn_gt ann hne hgt
    obtain ⟨a, as, rfl⟩ := List.exists_cons_of_ne_nil hne
    have h0a : 0 < (a :: as).length := by simp
    have h0g : 0 < nn_gt.length := List.length_pos.mpr hgt
    have hfirst : (do
        let x ← pyIndex (a :: as) 0
        let g ← pyIndex nn_gt 0
        pyDiv ((x.toFinset ∩ g.toFinset).card : ℚ) ((0 : ℕ) : ℚ)) =
          (.error .zeroDivisionError : Except PyError ℚ) := by
      rw [pyIndex_ok h0a ([] : List ℤ)]
      rw [show ((a :: as).getD 0 []) = a from rfl]
      rw [pyIndex_ok h0g ([] : List ℤ)]
      simp [pyDiv, Bind.bind, Except.bind]
    rw [compute_recall_at_k, show (a :: as).length = as.length + 1 from rfl,
      List.range_succ_eq_map]
    have hmaperr := exceptMapList_error (f := fun i => do
        let x ← pyIndex (a :: as) i
        let g ← pyIndex nn_gt i
        pyDiv ((x.toFinset ∩ g.toFinset).card : ℚ) ((0 : ℕ) : ℚ))
      (List.map Nat.succ (List.range as.length)) hfirst
    rw [hmaperr]
    rfl

/-- Witness for C10's amended theorem: at `nn_gt = [[9]]`,
`ann = [[5], [6]]`, `k = 0` — a non-empty ground truth even shorter than
the batch — the hypotheses hold and the call raises `ZeroDivisionError`. -/
theorem recall_at_k_div_by_zero_witness :
    compute_recall_at_k [[9]] [[5], [6]] 0 = .error .zeroDivisionError :=
  recall_at_k_div_by_zero.2 [[9]] [[5], [6]] (by decide) (by decide)

/-- Python slice `l[:n]` for an `int` bound `n`: a non-negative `n` takes
the first `n` elements; a negative `n` drops the last `|n|` elements. -/
def pySliceTo (l : List α) (n : ℤ) : List α :=
  if 0 ≤ n then l.take n.toNat else l.take (l.length - (-n).toNat)

/-- Embedding of `embedd_dataset` (semantic_search.py lines 24-38):
`model.encode(dataset[text_field][:rec_num])`.  The dataset is the text
column; the sentence-transformer model is the abstract per-string encoder
`encode` applied elementwise in order (the spec's Embedder contract:
order-preserving, one vector per input). -/
def embedd_dataset (encode : String → List ℚ) (texts : List String)
    (rec_num : ℤ) : List (List ℚ) :=
  (pySliceTo texts rec_num).map encode

/-- C1: as invoked by `main` with `rec_num = -1`, `embedd_dataset` slices
`dataset[text_field][:-1]`, which drops the final row: it returns `N - 1`
embeddings for `N` input rows, not `N`.  At the failing input of a single
chunk row it returns no embeddings at all, so `data/embeddings.pkl` does
not cover the full chunk set. -/
theorem embedd_dataset_rec_num_neg_one_drops_last :
    (∀ (encode : String → List ℚ) (texts : List String),
      (embedd_dataset encode texts (-1)).length = texts.length - 1) ∧
    embedd_dataset (fun _ => [0]) ["only-chunk"] (-1) = [] ∧
    ([] : List (List ℚ)).length ≠ (["only-chunk"] : List String).length := by
  refine ⟨fun encode texts => ?_, rfl, by decide⟩
  simp [embedd_dataset, pySliceTo]

/-- A row of the book dataframe, as `create_book_chunks` reads it: the
parent record identifier `str_idx` and the text `processed_content`. -/
structure BookRow where
  str_idx : ℤ
  processed_content : String

/-- The in-memory chunk list built by the loop of `create_book_chunks`
(semantic_search.py lines 126-131): for the `i`-th row, split its content
and append one `(str_idx, j, chunk)` triple per chunk, `j` counting from 0.
The text splitter (the external langchain collaborator wrapped by
`create_splits`) is passed as a function. -/
def book_chunks_mem (split : String → List String) (book_df : List BookRow) :
    List (ℤ × ℕ × String) :=
  book_df.flatMap (fun row =>
    (split row.processed_content).enum.map (fun jc => (row.str_idx, jc.1, jc.2)))

/-- Embedding of `create_book_chunks` (semantic_search.py lines 125-137):
build the chunk list, then `try` to build the dataframe and write
`data/chunks.csv` and return the dataframe; on any exception print
a message and fall off the end of the function (Python returns `None`).
`csv_write_ok` models whether the CSV write raises; the second component
collects the printed lines. -/
def create_book_chunks (split : String → List String) (book_df : List BookRow)
    (csv_write_ok : Bool) : Option (List (ℤ × ℕ × String)) × List String :=
  let chunks := book_chunks_mem split book_df
  if csv_write_ok then (some chunks, [])
  else (none, ["chunks CSV file could not be created."])

/-- The (parent identifier, sequence index) key of each chunk, in
collection order. -/
def chunk_keys (chunks : List (ℤ × ℕ × String)) : List (ℤ × ℕ) :=
  chunks.map (fun c => (c.1, c.2.1))

/-- The sequence indices of the chunks belonging to parent `p`, in
collection order. -/
def seq_indices_of (p : ℤ) (chunks : List (ℤ × ℕ × String)) : List ℕ :=
  (chunks.filter (fun c => decide (c.1 = p))).map (fun c => c.2.1)

lemma seq_indices_of_append (p : ℤ) (l1 l2 : List (ℤ × ℕ × String)) :
    seq_indices_of p (l1 ++ l2) = seq_indices_of p l1 ++ seq_indices_of p l2 := by
  simp [seq_indices_of, List.filter_append]

lemma seq_indices_of_block (x p : ℤ) (l : List String) :
    seq_indices_of p (l.enum.map (fun jc => (x, jc.1, jc.2))) =
      if x = p then List.range l.length else [] := by
  by_cases hx : x = p
  · rw [if_pos hx]
    unfold seq_indices_of
    rw [List.filter_eq_self.mpr ?_, List.map_map, show
      ((fun (c : ℤ × ℕ × String) => c.2.1) ∘ fun jc => (x, jc.1, jc.2)) = Prod.fst
        from rfl, List.enum_map_fst]
    intro c hc
    rw [List.mem_map] at hc
    obtain ⟨jc, _, rfl⟩ := hc
    simpa using hx
  · rw [if_neg hx]
    unfold seq_indices_of
    rw [List.filter_eq_nil_iff.mpr ?_]
    · rfl
    · intro c hc
      rw [List.mem_map] at hc
      obtain ⟨jc, _, rfl⟩ := hc
      simpa using hx

lemma mem_book_chunks_parent {split : String → List String}
    {book_df : List BookRow} {c : ℤ × ℕ × String}
    (h : c ∈ book_chunks_mem split book_df) :
    c.1 ∈ book_df.map BookRow.str_idx := by
  rw [book_chunks_mem, List.mem_flatMap] at h
  obtain ⟨row, hrow, hc⟩ := h
  rw [List.mem_map] at hc
  obtain ⟨jc, _, rfl⟩ := hc
  exact List.mem_map.mpr ⟨row, hrow, rfl⟩

lemma seq_indices_of_not_mem {p : ℤ} {split : String → List String}
    {book_df : List BookRow} (h : p ∉ book_df.map BookRow.str_idx) :
    seq_indices_of p (book_chunks_mem split book_df) = [] := by
  unfold seq_indices_of
  rw [List.filter_eq_nil_iff.mpr ?_]
  · rfl
  · intro c hc
    simp only [decide_eq_true_eq]
    intro hcp
    exact h (hcp ▸ mem_book_chunks_parent hc)

lemma book_chunks_mem_cons (split : String → List String) (row : BookRow)
    (rest : List BookRow) :
    book_chunks_mem split (row :: rest) =
      (split row.processed_content).enum.map (fun jc => (row.str_idx, jc.1, jc.2)) ++
        book_chunks_mem split rest := by
  simp [book_chunks_mem]

lemma chunk_keys_block (x : ℤ) (l : List String) :
    chunk_keys (l.enum.map (fun jc => (x, jc.1, jc.2))) =
      (List.range l.length).map (fun j => (x, j)) := by
  unfold chunk_keys
  rw [List.map_map, ← List.enum_map_fst l, List.map_map]
  rfl

lemma chunk_keys_mem_parent {split : String → List String}
    {book_df : List BookRow} {a : ℤ × ℕ}
    (h : a ∈ chunk_keys (book_chunks_mem split book_df)) :
    a.1 ∈ book_df.map BookRow.str_idx := by
  rw [chunk_keys, List.mem_map] at h
  obtain ⟨c, hc, rfl⟩ := h
  exact mem_book_chunks_parent hc

/-- C6 (counterexample): with two dataframe rows sharing the parent
identifier `1` (and a splitter producing one chunk per row), the chunk
collection is `[(1, 0, "x"), (1, 0, "y")]`: the key `(1, 0)` occurs twice,
and the sequence indices of parent `1` are `[0, 0]` — neither unique nor
contiguous without duplicates. -/
theorem book_chunks_duplicate_parent_breaks_uniqueness :
    book_chunks_mem (fun s => [s]) [⟨1, "x"⟩, ⟨1, "y"⟩] =
      [(1, 0, "x"), (1, 0, "y")] ∧
    ¬ (chunk_keys (book_chunks_mem (fun s => [s]) [⟨1, "x"⟩, ⟨1, "y"⟩])).Nodup ∧
    seq_indices_of 1 (book_chunks_mem (fun s => [s]) [⟨1, "x"⟩, ⟨1, "y"⟩]) = [0, 0] ∧
    [0, 0] ≠ List.range ([0, 0] : List ℕ).length := by
  refine ⟨rfl, ?_, rfl, by decide⟩
  show ¬ ([(1, 0), (1, 0)] : List (ℤ × ℕ)).Nodup
  decide

/-- C6 (amended): provided the parent identifiers `str_idx` are pairwise
distinct across the dataframe rows, every chunk carries its parent
identifier and a sequence index, within each parent the sequence indices
are exactly `0, 1, ..., count - 1` in order (contiguous, no gaps or
duplicates), and the (parent identifier, sequence index) keys are unique
across the whole collection. -/
theorem book_chunks_keys_unique_of_distinct_parents :
    ∀ (split : String → List String) (book_df : List BookRow),
      (book_df.map BookRow.str_idx).Nodup →
      (∀ p : ℤ, seq_indices_of p (book_chunks_mem split book_df) =
        List.range (seq_indices_of p (book_chunks_mem split book_df)).length) ∧
      (chunk_keys (book_chunks_mem split book_df)).Nodup := by
  intro split book_df hnd
  induction book_df with
  | nil => exact ⟨fun p => rfl, List.nodup_nil⟩
  | cons row rest ih =>
    rw [List.map_cons, List.nodup_cons] at hnd
    obtain ⟨hnot, hndrest⟩ := hnd
    obtain ⟨ihseq, ihkeys⟩ := ih hndrest
    constructor
    · intro p
      rw [book_chunks_mem_cons, seq_indices_of_append, seq_indices_of_block]
      by_cases hx : row.str_idx = p
      · rw [if_pos hx, seq_indices_of_not_mem (hx ▸ hnot)]
        simp
      · rw [if_neg hx, List.nil_append]
        exact ihseq p
    · rw [book_chunks_mem_cons, chunk_keys, List.map_append, ← chunk_keys,
        ← chunk_keys, chunk_keys_block, List.nodup_append]
      refine ⟨List.Nodup.map ?_ (List.nodup_range _), ihkeys, ?_⟩
      · intro a b hab
        simpa using hab
      · intro a ha hb
        rw [List.mem_map] at ha
        obtain ⟨j, _, rfl⟩ := ha
        exact hnot (chunk_keys_mem_parent hb)

/-- Witness for C6's amended theorem: two rows with distinct parents `1`
and `2`; parent `1`'s sequence indices are contiguous from 0 and the chunk
keys are unique. -/
theorem book_chunks_keys_unique_witness :
    (seq_indices_of 1 (book_chunks_mem (fun s => [s]) [⟨1, "x"⟩, ⟨2, "y"⟩]) =
      List.range (seq_indices_of 1
        (book_chunks_mem (fun s => [s]) [⟨1, "x"⟩, ⟨2, "y"⟩])).length) ∧
    (chunk_keys (book_chunks_mem (fun s => [s]) [⟨1, "x"⟩, ⟨2, "y"⟩])).Nodup :=
  ⟨(book_chunks_keys_unique_of_distinct_parents (fun s => [s])
      [⟨1, "x"⟩, ⟨2, "y"⟩] (by decide)).1 1,
   (book_chunks_keys_unique_of_distinct_parents (fun s => [s])
      [⟨1, "x"⟩, ⟨2, "y"⟩] (by decide)).2⟩

/-- C2 (counterexample): on a one-row dataframe whose CSV write fails,
`create_book_chunks` returns `None` even though the in-memory chunk list
`[(1, 0, "hello")]` was computed: the chunk collection is not yielded to
the caller (the `return chunks_df` sits inside the `try`). -/
theorem create_book_chunks_failure_loses_chunks :
    (create_book_chunks (fun s => [s]) [⟨1, "hello"⟩] false).1 = none ∧
    book_chunks_mem (fun s => [s]) [⟨1, "hello"⟩] = [(1, 0, "hello")] ∧
    (create_book_chunks (fun s => [s]) [⟨1, "hello"⟩] false).1 ≠
      some (book_chunks_mem (fun s => [s]) [⟨1, "hello"⟩]) := by
  refine ⟨rfl, rfl, ?_⟩
  simp [create_book_chunks]

/-- C2 (amended): a failing CSV write is caught — `create_book_chunks`
returns normally rather than propagating the exception — and reported by
printing a message, but the function then returns `None`, not the
in-memory chunk collection; only a successful write returns the chunks. -/
theorem create_book_chunks_catches_write_failure :
    ∀ (split : String → List String) (book_df : List BookRow),
      (create_book_chunks split book_df false).1 = none ∧
      (create_book_chunks split book_df false).2 =
        ["chunks CSV file could not be created."] ∧
      (create_book_chunks split book_df true).1 =
        some (book_chunks_mem split book_df) := by
  intro split book_df
  exact ⟨rfl, rfl, rfl⟩

/-- Row 0 of the distance matrix returned by `index.search([q], top_n)`
(the faiss index is the abstract batch-search collaborator `search`). -/
def row0_distances (search : List (List ℚ) → ℕ → List (List ℚ) × List (List ℕ))
    (q : List ℚ) (top_n : ℕ) : List ℚ :=
  ((search [q] top_n).1).getD 0 []

/-- Row 0 of the index matrix returned by `index.search([q], top_n)`. -/
def row0_indices (search : List (List ℚ) → ℕ → List (List ℚ) × List (List ℕ))
    (q : List ℚ) (top_n : ℕ) : List ℕ :=
  ((search [q] top_n).2).getD 0 []

/-- Embedding of `retrieve_top_passages` (semantic_search.py lines 100-104):
embed the query as the single-element batch `[query]`, run one batch search,
and build `[(chunks[idx], distances[0][i]) for i, idx in enumerate(indices[0])]`.
`encode` is the sentence-transformer model, `search` the faiss index's
search method. -/
def retrieve_top_passages (encode : String → List ℚ)
    (search : List (List ℚ) → ℕ → List (List ℚ) × List (List ℕ))
    (query : String) (chunks : List String) (top_n : ℕ := 5) :
    List (String × ℚ) :=
  (row0_indices search (encode query) top_n).enum.map (fun ii =>
    (chunks.getD ii.2 "", (row0_distances search (encode query) top_n).getD ii.1 0))

lemma map_getD_range {α : Type} (l : List α) (d : α) :
    (List.range l.length).map (fun i => l.getD i d) = l := by
  induction l with
  | nil => rfl
  | cons a as ih =>
    rw [List.length_cons, List.range_succ_eq_map, List.map_cons, List.map_map]
    show a :: List.map ((fun i => (a :: as).getD i d) ∘ Nat.succ) (List.range as.length) = _
    rw [show ((fun i => (a :: as).getD i d) ∘ Nat.succ) = fun i => as.getD i d from rfl, ih]

/-- C4: when the single batch search returns equally many indices and
distances, at most `top_n` of them, with the distances non-decreasing (the
faiss contract), `retrieve_top_passages` returns at most `top_n`
(chunk, distance) pairs, the `i`-th pair being
`(chunks[indices[0][i]], distances[0][i])`, ordered by non-decreasing
distance. -/
theorem retrieve_top_passages_spec :
    ∀ (encode : String → List ℚ)
      (search : List (List ℚ) → ℕ → List (List ℚ) × List (List ℕ))
      (query : String) (chunks : List String) (top_n : ℕ),
      (row0_indices search (encode query) top_n).length =
        (row0_distances search (encode query) top_n).length →
      (row0_indices search (encode query) top_n).length ≤ top_n →
      (row0_distances search (encode query) top_n).Sorted (· ≤ ·) →
      (retrieve_top_passages encode search query chunks top_n).length ≤ top_n ∧
      (∀ i, i < (retrieve_top_passages encode search query chunks top_n).length →
        (retrieve_top_passages encode search query chunks top_n).getD i ("", 0) =
          (chunks.getD ((row0_indices search (encode query) top_n).getD i 0) "",
           (row0_distances search (encode query) top_n).getD i 0)) ∧
      ((retrieve_top_passages encode search query chunks top_n).map
        Prod.snd).Sorted (· ≤ ·) := by
  intro encode search query chunks top_n hlen hle hsort
  refine ⟨?_, ?_, ?_⟩
  · simpa [retrieve_top_passages, List.enum_length] using hle
  · intro i hi
    have hiI : i < (row0_indices search (encode query) top_n).length := by
      simpa [retrieve_top_passages, List.enum_length] using hi
    have hiE : i < (row0_indices search (encode query) top_n).enum.length := by
      simpa [List.enum_length] using hiI
    rw [List.getD_eq_getElem _ _ hi]
    simp only [retrieve_top_passages]
    rw [List.getElem_map, List.getElem_enum]
    rw [List.getD_eq_getElem _ _ hiI]
  · have hmap : (retrieve_top_passages encode search query chunks top_n).map
        Prod.snd = row0_distances search (encode query) top_n := by
      rw [retrieve_top_passages, List.map_map]
      rw [show (Prod.snd ∘ fun ii : ℕ × ℕ =>
        (chunks.getD ii.2 "",
         (row0_distances search (encode query) top_n).getD ii.1 0)) =
        ((fun i => (row0_distances search (encode query) top_n).getD i 0) ∘
          Prod.fst) from rfl]
      rw [← List.map_map, List.enum_map_fst, hlen, map_getD_range]
    rw [hmap]
    exact hsort

/-- Witness for C4: a two-vector index whose search returns indices `[0, 1]`
at distances `[0, 1]` for any query; all hypotheses hold at `top_n = 2`. -/
theorem retrieve_top_passages_spec_witness :
    (retrieve_top_passages (fun _ => []) (fun _ _ => ([[0, 1]], [[0, 1]]))
      "q" ["a", "b"] 2).length ≤ 2 ∧
    (∀ i, i < (retrieve_top_passages (fun _ => []) (fun _ _ => ([[0, 1]], [[0, 1]]))
        "q" ["a", "b"] 2).length →
      (retrieve_top_passages (fun _ => []) (fun _ _ => ([[0, 1]], [[0, 1]]))
        "q" ["a", "b"] 2).getD i ("", 0) =
        ((["a", "b"] : List String).getD
          ((row0_indices (fun _ _ => ([[0, 1]], [[0, 1]])) [] 2).getD i 0) "",
         (row0_distances (fun _ _ => ([[0, 1]], [[0, 1]])) [] 2).getD i 0)) ∧
    ((retrieve_top_passages (fun _ => []) (fun _ _ => ([[0, 1]], [[0, 1]]))
      "q" ["a", "b"] 2).map Prod.snd).Sorted (· ≤ ·) :=
  retrieve_top_passages_spec (fun _ => []) (fun _ _ => ([[0, 1]], [[0, 1]]))
    "q" ["a", "b"] 2 rfl (by decide)
    (by simp [row0_distances, List.sorted_cons])

/-- Embedding of `retrieve` (semantic_search.py lines 140-144): `queries`
is hard-coded to the empty list, `retrieval_results` starts as
`{query: [] for query in queries}` and the loop assigns each key the value
`retrieve_top_passages(query, model, index, chunks)`; the function body has
no `return`, so Python returns `None`.  The result records the returned
value, the final dict (as an association list, one entry per loop
iteration) and the number of searches performed (one per iteration). -/
def retrieve (encode : String → List ℚ)
    (search : List (List ℚ) → ℕ → List (List ℚ) × List (List ℕ))
    (chunks : List String) :
    Option (List (String × ℚ)) × List (String × List (String × ℚ)) × ℕ :=
  let queries : List String := []
  let retrieval_results := queries.map (fun query =>
    (query, retrieve_top_passages encode search query chunks 5))
  (none, retrieval_results, queries.length)

/-- C9: for every model, index and chunk collection, `retrieve` performs no
searches and produces no retrieval results, and returns `None`: its query
list is empty, so its loop body never executes. -/
theorem retrieve_is_dead_code :
    ∀ (encode : String → List ℚ)
      (search : List (List ℚ) → ℕ → List (List ℚ) × List (List ℕ))
      (chunks : List String),
      retrieve encode search chunks = (none, [], 0) :=
  fun _ _ _ => rfl

/-- A serialized blob on disk: either a faithful pickle of an embedding
matrix (pickle is a whole-object binary snapshot, so deserialization
recovers exactly the pickled object) or bytes that do not deserialize to
one. -/
inductive Blob where
  | pickled (m : List (List ℚ))
  | corrupt (bytes : String)
  deriving DecidableEq

/-- `pickle.dump`: serialize the embedding matrix. -/
def pickleDump (m : List (List ℚ)) : Blob := .pickled m

/-- `pickle.load`: deserialize, failing on bytes that are not a pickled
embedding matrix. -/
def pickleLoad : Blob → Option (List (List ℚ))
  | .pickled m => some m
  | .corrupt _ => none

/-- The I/O failures the persistence layer can raise. -/
inductive IOErrorKind where
  | unwritable
  | unreadable
  | unpicklable
  deriving DecidableEq

/-- The filesystem as the persistence layer sees it: the stored files (an
association list, most recent write first) and per-path write/read
permissions. -/
structure FileSystem where
  files : List (String × Blob)
  writable : String → Bool
  readable : String → Bool

/-- Embedding of `save_embeddings` (semantic_search.py lines 147-149):
`open(file_path, "wb")` then `pickle.dump(embeddings, f)`.  Opening an
unwritable path raises; otherwise the file is (over)written with the
pickled matrix.  There is no try/except: the error is returned to the
caller. -/
def save_embeddings (embeddings : List (List ℚ)) (fs : FileSystem)
    (file_path : String := "data/embeddings.pkl") :
    Except IOErrorKind FileSystem :=
  if fs.writable file_path then
    .ok { fs with files := (file_path, pickleDump embeddings) :: fs.files }
  else .error .unwritable

/-- Embedding of `load_embeddings` (semantic_search.py lines 152-155):
`open(file_path, "rb")` then `pickle.load(f)`.  A missing or unreadable
path raises on open; undeserializable contents raise in `pickle.load`.
There is no try/except: the error is returned to the caller. -/
def load_embeddings (fs : FileSystem)
    (file_path : String := "data/embeddings.pkl") :
    Except IOErrorKind (List (List ℚ)) :=
  if fs.readable file_path then
    match fs.files.lookup file_path with
    | some blob =>
      match pickleLoad blob with
      | some m => .ok m
      | none => .error .unpicklable
    | none => .error .unreadable
  else .error .unreadable

/-- C5: on a path that is writable and readable, `load_embeddings` after
`save_embeddings` returns a matrix equal to the original (round-trip law). -/
theorem save_load_roundtrip (embeddings : List (List ℚ)) (fs : FileSystem)
    (file_path : String) (hw : fs.writable file_path = true)
    (hr : fs.readable file_path = true) :
    ∃ fs', save_embeddings embeddings fs file_path = .ok fs' ∧
      load_embeddings fs' file_path = .ok embeddings := by
  refine ⟨{ fs with files := (file_path, pickleDump embeddings) :: fs.files },
    ?_, ?_⟩
  · rw [save_embeddings, if_pos hw]
  · rw [load_embeddings]
    show (if fs.readable file_path then _ else _) = _
    rw [if_pos hr]
    simp [List.lookup, pickleDump, pickleLoad]

/-- Witness for C5: the round trip at a concrete matrix `[[1, 2], [3, 4]]`
on an empty, fully-permissive filesystem. -/
theorem save_load_roundtrip_witness :
    ∃ fs', save_embeddings [[1, 2], [3, 4]]
        ⟨[], fun _ => true, fun _ => true⟩ "data/embeddings.pkl" = .ok fs' ∧
      load_embeddings fs' "data/embeddings.pkl" = .ok [[1, 2], [3, 4]] :=
  save_load_roundtrip [[1, 2], [3, 4]] ⟨[], fun _ => true, fun _ => true⟩
    "data/embeddings.pkl" rfl rfl

/-- C7: `save_embeddings` raises an I/O error exactly when the path is
unwritable, and `load_embeddings` raises exactly when the path is
unreadable (including missing) or its contents do not deserialize; neither
contains any error suppression, so in every other case the operation
returns a value. -/
theorem save_load_error_conditions :
    (∀ (embeddings : List (List ℚ)) (fs : FileSystem) (file_path : String),
      (∃ e, save_embeddings embeddings fs file_path = .error e) ↔
        fs.writable file_path = false) ∧
    (∀ (fs : FileSystem) (file_path : String),
      (∃ e, load_embeddings fs file_path = .error e) ↔
        (fs.readable file_path = false ∨ fs.files.lookup file_path = none ∨
          ∃ blob, fs.files.lookup file_path = some blob ∧ pickleLoad blob = none)) := by
  constructor
  · intro embeddings fs file_path
    rw [save_embeddings]
    by_cases hw : fs.writable file_path
    · simp [hw]
    · simp [hw]
  · intro fs file_path
    rw [load_embeddings]
    by_cases hr : fs.readable file_path
    · rw [if_pos hr]
      cases hlook : fs.files.lookup file_path with
      | none => simp [hr, hlook]
      | some blob =>
        cases hload : pickleLoad blob with
        | none => simp [hr, hlook, hload]
        | some m => simp [hr, hlook, hload]
    · rw [if_neg hr]
      simp [Bool.not_eq_true _ ▸ hr]

/-- Split a character list at a separator, keeping the separator attached
to the piece it ends, so that concatenating the pieces restores the input
exactly (the splitter is lossless: no characters are dropped). -/
def splitKeepSep (sep : Char) : List Char → List (List Char)
  | [] => []
  | c :: rest =>
    match splitKeepSep sep rest with
    | [] => [[c]]
    | p :: ps => if c = sep then [c] :: p :: ps else (c :: p) :: ps

lemma splitKeepSep_flatten (sep : Char) :
    ∀ l : List Char, (splitKeepSep sep l).flatten = l
  | [] => rfl
  | c :: rest => by
    have ih := splitKeepSep_flatten sep rest
    simp only [splitKeepSep]
    cases h : splitKeepSep sep rest with
    | nil =>
      rw [h] at ih
      simp only [List.flatten_nil] at ih
      simp [ih.symm]
    | cons p ps =>
      rw [h] at ih
      by_cases hc : c = sep
      · simp only [if_pos hc, List.flatten_cons] at ih ⊢
        simp [hc, ih]
      · simp only [if_neg hc, List.flatten_cons] at ih ⊢
        simp [ih]

lemma length_le_flatten {p : List Char} {ps : List (List Char)} (h : p ∈ ps) :
    p.length ≤ ps.flatten.length := by
  rw [List.length_flatten]
  exact List.single_le_sum (fun x _ => Nat.zero_le x) _
    (List.mem_map_of_mem _ h)

/-- Raw character cuts for a fragment larger than the chunk size: emit
windows of `chunk_size` characters advancing by `step` (so consecutive
cuts overlap by `chunk_size - step`). -/
def hardCut (chunk_size step : ℕ) (l : List Char) : List (List Char) :=
  if h : l.length ≤ chunk_size ∨ step = 0 then [l]
  else l.take chunk_size :: hardCut chunk_size step (l.drop step)
termination_by l.length
decreasing_by
  push_neg at h
  simp only [List.length_drop]
  omega

/-- Greedily merge adjacent fragments while the accumulated chunk stays
within the chunk size; emit the accumulator when the next fragment would
overflow it. -/
def mergeAux (chunk_size : ℕ) (acc : List Char) :
    List (List Char) → List (List Char)
  | [] => if acc.isEmpty then [] else [acc]
  | p :: ps =>
    if acc.isEmpty = true ∨ (acc ++ p).length ≤ chunk_size then
      mergeAux chunk_size (acc ++ p) ps
    else acc :: mergeAux chunk_size p ps

lemma mergeAux_all_fits (chunk_size : ℕ) :
    ∀ (ps : List (List Char)) (acc : List Char),
      (acc ++ ps.flatten).length ≤ chunk_size →
      mergeAux chunk_size acc ps =
        if (acc ++ ps.flatten).isEmpty then [] else [acc ++ ps.flatten]
  | [], acc, _ => by simp [mergeAux]
  | p :: ps, acc, h => by
    have hfit : (acc ++ p).length ≤ chunk_size := by
      simp only [List.flatten_cons, List.length_append] at h ⊢
      omega
    have hrest : ((acc ++ p) ++ ps.flatten).length ≤ chunk_size := by
      simpa [List.flatten_cons, List.append_assoc] using h
    simp only [mergeAux, if_pos (Or.inr hfit)]
    rw [mergeAux_all_fits chunk_size ps (acc ++ p) hrest]
    simp [List.flatten_cons, List.append_assoc]

/-- Modelled from the spec: the `split_text` method of langchain's
`RecursiveCharacterTextSplitter`, the external splitting capability that
`create_splits` constructs and delegates to (its code is not part of this
repository).  Per §4.1 of the spec it splits on natural separators (here:
word boundaries, losslessly) before falling back to raw character cuts for
oversized fragments, and merges adjacent fragments so that no chunk
exceeds `chunk_size`, with `overlap` the target overlap of the raw cuts.
Text is a list of characters. -/
def split_text (chunk_size overlap : ℕ) (text : List Char) :
    List (List Char) :=
  mergeAux chunk_size []
    ((splitKeepSep ' ' text).flatMap (fun p =>
      if p.length ≤ chunk_size then [p]
      else hardCut chunk_size (max (chunk_size - overlap) 1) p))

/-- Embedding of `create_splits` (semantic_search.py lines 107-122):
construct a `RecursiveCharacterTextSplitter` with the given chunk size and
overlap and return `text_splitter.split_text(texts)` (the `print` of the
chunk count has no bearing on the result and is ignored). -/
def create_splits (texts : List Char) (split_chunk_size split_overlap : ℕ) :
    List (List Char) :=
  split_text split_chunk_size split_overlap texts

/-- C8: for every chunk size and overlap, `create_splits` on empty input
yields an empty sequence of chunks, and on non-empty input shorter than
the chunk size it yields exactly one chunk equal to the input. -/
theorem create_splits_edge_cases :
    (∀ (chunk_size overlap : ℕ), create_splits [] chunk_size overlap = []) ∧
    (∀ (chunk_size overlap : ℕ) (text : List Char), text ≠ [] →
      text.length < chunk_size →
      create_splits text chunk_size overlap = [text]) := by
  constructor
  · intro chunk_size overlap
    rfl
  · intro chunk_size overlap text hne hlt
    unfold create_splits split_text
    have hflat : (splitKeepSep ' ' text).flatten = text :=
      splitKeepSep_flatten ' ' text
    have hsized : (splitKeepSep ' ' text).flatMap (fun p =>
        if p.length ≤ chunk_size then [p]
        else hardCut chunk_size (max (chunk_size - overlap) 1) p) =
          splitKeepSep ' ' text := by
      have hshort : ∀ p ∈ splitKeepSep ' ' text,
          (if p.length ≤ chunk_size then [p]
           else hardCut chunk_size (max (chunk_size - overlap) 1) p) = [p] := by
        intro p hp
        rw [if_pos]
        calc p.length ≤ (splitKeepSep ' ' text).flatten.length :=
              length_le_flatten hp
          _ = text.length := by rw [hflat]
          _ ≤ chunk_size := le_of_lt hlt
      calc (splitKeepSep ' ' text).flatMap (fun p =>
            if p.length ≤ chunk_size then [p]
            else hardCut chunk_size (max (chunk_size - overlap) 1) p)
          = ((splitKeepSep ' ' text).map (fun p =>
              if p.length ≤ chunk_size then [p]
              else hardCut chunk_size (max (chunk_size - overlap) 1) p)).flatten := by
            rw [List.flatMap_def]
        _ = ((splitKeepSep ' ' text).map (fun p => [p])).flatten := by
            rw [List.map_congr_left hshort]
        _ = splitKeepSep ' ' text := by
            rw [← List.flatMap_def, List.flatMap_singleton']
    rw [hsized, mergeAux_all_fits chunk_size _ []
      (by simpa [hflat] using le_of_lt hlt)]
    simp only [List.nil_append, hflat]
    simp [List.isEmpty_iff, hne]

/-- Witness for C8: the two-character text `"hi"` with chunk size 3 yields
the single chunk `"hi"`. -/
theorem create_splits_edge_cases_witness :
    create_splits [Char.ofNat 104, Char.ofNat 105] 3 1 =
      [[Char.ofNat 104, Char.ofNat 105]] :=
  create_splits_edge_cases.2 3 1 [Char.ofNat 104, Char.ofNat 105]
    (by decide) (by decide)

end Sleek
